import Mathlib

/-!
# Content normalisation in `relay/channel/openai/model.go`

A shallow embedding of the four extractors of the OpenAI relay model
(`Message.IsStringContent`, `Message.StringContent`, `Message.ParseContent`,
`GeneralOpenAIRequest.ParseInput`) together with the parts of Go and of
`encoding/json` they rely on, followed by theorems about them.

Conventions of the embedding.

* A Go `interface{}` holding a decoded JSON document is a `JVal`; the nil
  interface is `JVal.null`.
* A `json.RawMessage` is represented by what the bytes denote: `none` when
  they are not one well-formed JSON document (the empty payload included) and
  `some d` when they are the text of the document `d`, a `RawDoc`. A `RawDoc`
  is not yet decoded: it may hold a number literal that no `float64` can
  hold, which a generic decode rejects and a raw copy accepts.
* A Go slice is a `GoSlice`, which keeps the nil slice apart from an
  allocated slice of length zero.
* A failed single-value type assertion `x.(T)` is a run-time panic; functions
  that contain one return `Except Panic _`.
-/

namespace OpenAI

/-! ## Go values -/

/-- Dynamic value held by an `interface{}` after a generic JSON decode:
nil, `bool`, `float64` (its numeric value is never inspected by the code, an
integer stands for it), `string`, `[]interface{}` and
`map[string]interface{}`. A map is an association list read with first-match
lookup. -/
inductive JVal where
  | null
  | bool (b : Bool)
  | num (n : Int)
  | str (s : String)
  | arr (items : List JVal)
  | obj (fields : List (String × JVal))

/-- Go map type `map[string]interface{}`. -/
abbrev GoMap := List (String × JVal)

/-- Two-value map read `v, ok := m[k]`: `none` stands for `ok == false`. -/
def mapGet : GoMap → String → Option JVal
  | [], _ => none
  | (key, v) :: rest, k => if key = k then some v else mapGet rest k

/-- One-value map read `m[k]`: an absent key reads as the nil interface. -/
def mapIndex (m : GoMap) (k : String) : JVal :=
  match mapGet m k with
  | some v => v
  | none => JVal.null

/-- Map assignment `m[k] = v`. -/
def mapSet (m : GoMap) (k : String) (v : JVal) : GoMap :=
  (k, v) :: m

/-- Go slice: the nil slice, or an allocated slice with its elements. -/
inductive GoSlice (α : Type) where
  | nil
  | mk (elems : List α)
  deriving DecidableEq, Repr

/-- Elements of a slice in order; the nil slice has none. -/
def GoSlice.toList {α : Type} : GoSlice α → List α
  | GoSlice.nil => []
  | GoSlice.mk elems => elems

/-- Built-in `len`. -/
def GoSlice.len {α : Type} (s : GoSlice α) : Nat :=
  s.toList.length

/-- Test `s == nil`. -/
def GoSlice.isNil {α : Type} : GoSlice α → Bool
  | GoSlice.nil => true
  | GoSlice.mk _ => false

/-- Built-in `append(s, x)`: the result is always an allocated slice. -/
def GoSlice.append {α : Type} (s : GoSlice α) (x : α) : GoSlice α :=
  GoSlice.mk (s.toList ++ [x])

/-- Run-time panic raised by a failed type assertion `x.(T)`. -/
inductive Panic where
  | interfaceConversion
  deriving DecidableEq, Repr

/-- Single-value type assertion `x.(string)`: it panics unless the dynamic
type of `x` is `string` (in particular on the nil interface). -/
def assertString : JVal → Except Panic String
  | JVal.str s => Except.ok s
  | _ => Except.error Panic.interfaceConversion

/-! ## `encoding/json` -/

/-- Well-formed JSON text, by its syntax tree. A number literal is either
within the range of `float64` (`num`, with the same stand-in for its value as
`JVal.num`) or outside it (`numOutOfRange`, for instance `1e999`). An object
is given by its members with a repeated key already resolved as the decoder
does, as an association list read with first-match lookup. -/
inductive RawDoc where
  | null
  | bool (b : Bool)
  | num (n : Int)
  | numOutOfRange
  | str (s : String)
  | arr (items : List RawDoc)
  | obj (members : List (String × RawDoc))

/-- Raw JSON payload (`json.RawMessage`), by what its bytes denote: `none`
when they fail the syntax check that every `json.Unmarshal` call runs first,
`some d` when they are the text of `d`. -/
abbrev RawMessage := Option RawDoc

mutual
/-- Generic decode of a document into an `interface{}`. Every number literal
is converted with `strconv.ParseFloat`; one that is out of range makes the
whole call return an `UnmarshalTypeError`, here `none`. -/
def RawDoc.decode : RawDoc → Option JVal
  | RawDoc.null => some JVal.null
  | RawDoc.bool b => some (JVal.bool b)
  | RawDoc.num n => some (JVal.num n)
  | RawDoc.numOutOfRange => none
  | RawDoc.str s => some (JVal.str s)
  | RawDoc.arr items =>
    match RawDoc.decodeItems items with
    | some vs => some (JVal.arr vs)
    | none => none
  | RawDoc.obj members =>
    match RawDoc.decodeMembers members with
    | some fields => some (JVal.obj fields)
    | none => none
/-- Generic decode of the elements of an array. -/
def RawDoc.decodeItems : List RawDoc → Option (List JVal)
  | [] => some []
  | d :: rest =>
    match RawDoc.decode d, RawDoc.decodeItems rest with
    | some v, some vs => some (v :: vs)
    | _, _ => none
/-- Generic decode of the members of an object. -/
def RawDoc.decodeMembers : List (String × RawDoc) → Option GoMap
  | [] => some []
  | (k, d) :: rest =>
    match RawDoc.decode d, RawDoc.decodeMembers rest with
    | some v, some fields => some ((k, v) :: fields)
    | _, _ => none
end

mutual
/-- The document whose text encodes a decoded value (`json.Marshal`). -/
def JVal.encode : JVal → RawDoc
  | JVal.null => RawDoc.null
  | JVal.bool b => RawDoc.bool b
  | JVal.num n => RawDoc.num n
  | JVal.str s => RawDoc.str s
  | JVal.arr items => RawDoc.arr (JVal.encodeItems items)
  | JVal.obj fields => RawDoc.obj (JVal.encodeFields fields)
/-- Encoding of the elements of a sequence, in order. -/
def JVal.encodeItems : List JVal → List RawDoc
  | [] => []
  | v :: rest => JVal.encode v :: JVal.encodeItems rest
/-- Encoding of the entries of a map. -/
def JVal.encodeFields : GoMap → List (String × RawDoc)
  | [] => []
  | (k, v) :: rest => (k, JVal.encode v) :: JVal.encodeFields rest
end

/-- The raw payload that encodes a value (`json.Marshal`). -/
def jsonEncode (v : JVal) : RawMessage :=
  some v.encode

/-- Call `json.Unmarshal(raw, &x)` with `x` of type `interface{}`: it fails
on bytes that are not well-formed JSON, and on a well-formed document that
holds a number literal outside `float64`. `none` is a non-nil error. -/
def unmarshalAny (raw : RawMessage) : Option JVal :=
  match raw with
  | none => none
  | some d => d.decode

/-- Call `json.Unmarshal(raw, &x)` with `x` a `string` variable currently
holding `cur`. A JSON string is stored; JSON null "has no effect on the
value and produces no error" (package documentation), so `x` keeps `cur`;
every other document is an `UnmarshalTypeError`. `none` is a non-nil error. -/
def unmarshalString (raw : RawMessage) (cur : String) : Option String :=
  match raw with
  | some (RawDoc.str s) => some s
  | some RawDoc.null => some cur
  | _ => none

/-- Call `json.Unmarshal(raw, &x)` with `x` of type `[]json.RawMessage`. A
JSON array stores the text of each element without decoding it, so a number
literal out of range inside an element is no error here; JSON null sets the
slice to nil; every other document is an error. -/
def unmarshalRawArray (raw : RawMessage) : Option (GoSlice RawDoc) :=
  match raw with
  | some (RawDoc.arr items) => some (GoSlice.mk items)
  | some RawDoc.null => some GoSlice.nil
  | _ => none

/-- Call `json.Unmarshal(item, &m)` with `m` a nil `map[string]any`, on one
raw element of an array. The members of a JSON object are decoded
generically and stored, and the call returns an error when one of them holds
a number literal out of range; JSON null leaves the map nil, which reads as
the empty map; every other document is an error. -/
def unmarshalMap (item : RawDoc) : Option GoMap :=
  match item with
  | RawDoc.obj members => RawDoc.decodeMembers members
  | RawDoc.null => some []
  | _ => none

/-! ## The data model of `model.go` -/

/-- Modelled from the spec: the constant `ContentTypeText` is declared outside
`model.go`; the spec gives the text tag as `"text"`. -/
def ContentTypeText : String := "text"

/-- Modelled from the spec: the constant `ContentTypeImageURL` is declared
outside `model.go`; the spec gives the image tag as `"image_url"`. -/
def ContentTypeImageURL : String := "image_url"

/-- Struct `MessageImageUrl`. -/
structure MessageImageUrl where
  Url : String
  Detail : String
  deriving DecidableEq, Repr

/-- Struct `MediaMessage`; field `Type` is spelled `Type_` (a reserved word).
Field `ImageUrl` has type `any`; the code only
ever leaves it nil (`none`) or stores a `MessageImageUrl` in it. -/
structure MediaMessage where
  Type_ : String
  Text : String := ""
  ImageUrl : Option MessageImageUrl := none
  deriving DecidableEq, Repr

/-- Struct `Message`. -/
structure Message where
  Role : String := ""
  Content : RawMessage
  Name : Option String := none

/-- Struct `GeneralOpenAIRequest`, restricted to the one field `ParseInput`
reads. `Input` has type `any`. -/
structure GeneralOpenAIRequest where
  Input : JVal

/-! ## The extractors -/

/-- Method `Message.IsStringContent` (model.go 54-61). -/
def IsStringContent (m : Message) : Bool :=
  match unmarshalAny m.Content with
  | none => false
  | some (JVal.str _) => true
  | some _ => false

/-- Body of the loop of `StringContent` (model.go 74-84): the new value of
`contentStr` after one `contentItem`. -/
def stringContentItem (contentStr : String) (contentItem : JVal) : String :=
  match contentItem with
  | JVal.obj contentMap =>
    match mapIndex contentMap "type" with
    | JVal.str t =>
      if t = ContentTypeText then
        match mapIndex contentMap "text" with
        | JVal.str subStr => contentStr ++ subStr
        | _ => contentStr
      else contentStr
    | _ => contentStr
  | _ => contentStr

/-- The `for ... range v` loop of `StringContent`. -/
def stringContentLoop : String → List JVal → String
  | contentStr, [] => contentStr
  | contentStr, contentItem :: rest =>
    stringContentLoop (stringContentItem contentStr contentItem) rest

/-- Method `Message.StringContent` (model.go 63-89). -/
def StringContent (m : Message) : String :=
  match unmarshalAny m.Content with
  | none => ""
  | some (JVal.str v) => v
  | some (JVal.arr v) => stringContentLoop "" v
  | some _ => ""

/-- The `case ContentTypeImageURL` arm of `ParseContent` once `subObj` is
known to be a map (model.go 118-130): the `detail` normalisation writes back
into `subObj`, then both fields are read with single-value assertions. -/
def parseImageUrl (contentList : GoSlice MediaMessage) (subObj : GoMap) :
    Except Panic (GoSlice MediaMessage) :=
  let written : Except Panic GoMap :=
    match mapGet subObj "detail" with
    | some detail =>
      match assertString detail with
      | Except.ok s => Except.ok (mapSet subObj "detail" (JVal.str s))
      | Except.error e => Except.error e
    | none => Except.ok (mapSet subObj "detail" (JVal.str "auto"))
  match written with
  | Except.error e => Except.error e
  | Except.ok subObj2 =>
    match assertString (mapIndex subObj2 "url") with
    | Except.error e => Except.error e
    | Except.ok url =>
      match assertString (mapIndex subObj2 "detail") with
      | Except.error e => Except.error e
      | Except.ok detail =>
        Except.ok (contentList.append
          { Type_ := ContentTypeImageURL, ImageUrl := some { Url := url, Detail := detail } })

/-- Body of the loop of `ParseContent` (model.go 104-132): the new value of
`contentList` after one `contentItem`, or a panic. -/
def parseContentItem (contentList : GoSlice MediaMessage) (contentItem : RawDoc) :
    Except Panic (GoSlice MediaMessage) :=
  match unmarshalMap contentItem with
  | none => Except.ok contentList
  | some contentMap =>
    match mapIndex contentMap "type" with
    | JVal.str t =>
      if t = ContentTypeText then
        match mapIndex contentMap "text" with
        | JVal.str subStr =>
          Except.ok (contentList.append { Type_ := ContentTypeText, Text := subStr })
        | _ => Except.ok contentList
      else if t = ContentTypeImageURL then
        match mapIndex contentMap "image_url" with
        | JVal.obj subObj => parseImageUrl contentList subObj
        | _ => Except.ok contentList
      else Except.ok contentList
    | _ => Except.ok contentList

/-- The `for ... range arrayContent` loop of `ParseContent`; a panic in one
iteration ends the call. -/
def parseContentLoop : GoSlice MediaMessage → List RawDoc → Except Panic (GoSlice MediaMessage)
  | contentList, [] => Except.ok contentList
  | contentList, contentItem :: rest =>
    match parseContentItem contentList contentItem with
    | Except.error e => Except.error e
    | Except.ok contentList2 => parseContentLoop contentList2 rest

/-- Method `Message.ParseContent` (model.go 91-138). -/
def ParseContent (m : Message) : Except Panic (GoSlice MediaMessage) :=
  match unmarshalString m.Content "" with
  | some stringContent =>
    Except.ok (GoSlice.nil.append { Type_ := ContentTypeText, Text := stringContent })
  | none =>
    match unmarshalRawArray m.Content with
    | some arrayContent => parseContentLoop GoSlice.nil arrayContent.toList
    | none => Except.ok GoSlice.nil

/-- Body of the loop of `ParseInput` (model.go 177-179). -/
def parseInputItem (input : GoSlice String) (item : JVal) : GoSlice String :=
  match item with
  | JVal.str s => input.append s
  | _ => input

/-- The `for ... range` loop of `ParseInput`. -/
def parseInputLoop : GoSlice String → List JVal → GoSlice String
  | input, [] => input
  | input, item :: rest => parseInputLoop (parseInputItem input item) rest

/-- Method `GeneralOpenAIRequest.ParseInput` (model.go 166-183). -/
def ParseInput (r : GeneralOpenAIRequest) : GoSlice String :=
  match r.Input with
  | JVal.null => GoSlice.nil
  | JVal.str s => GoSlice.mk [s]
  | JVal.arr items => parseInputLoop (GoSlice.mk []) items
  | _ => GoSlice.nil

/-! ## Vocabulary of the statements -/

/-- Sequence element `{"type":"text","text":t}`. -/
def textElement (t : String) : JVal :=
  JVal.obj [("type", JVal.str "text"), ("text", JVal.str t)]

/-- Text part carrying `t`: `MediaMessage{Type: ContentTypeText, Text: t}`. -/
def textPart (t : String) : MediaMessage :=
  { Type_ := ContentTypeText, Text := t, ImageUrl := none }

/-- Image part: `MediaMessage{Type: ContentTypeImageURL, ImageUrl:
MessageImageUrl{Url: u, Detail: d}}`. -/
def imagePart (u d : String) : MediaMessage :=
  { Type_ := ContentTypeImageURL, Text := "", ImageUrl := some { Url := u, Detail := d } }

/-- Message whose content payload encodes `v`. -/
def messageOf (v : JVal) : Message :=
  { Content := jsonEncode v }

/-- Elements the parser passes over by kind: everything that is not an
object, and every object whose `type` is neither the text tag nor the image
tag (an object without a `type` field included). -/
def ignoredElement : JVal → Bool
  | JVal.obj fields =>
    match mapGet fields "type" with
    | some (JVal.str t) => decide (t ≠ ContentTypeText) && decide (t ≠ ContentTypeImageURL)
    | _ => true
  | _ => true

/-- Text contributed by a sequence element to the flattened string: the
`text` field of an object whose `type` is the text tag and whose `text` is a
string; nothing for any other element. -/
def textField : JVal → Option String
  | JVal.obj fields =>
    match mapGet fields "type", mapGet fields "text" with
    | some (JVal.str t), some (JVal.str sub) => if t = ContentTypeText then some sub else none
    | _, _ => none
  | _ => none

/-- Concatenation of a list of strings, in order. -/
def concatStrings : List String → String
  | [] => ""
  | s :: rest => s ++ concatStrings rest

/-- The string held by a value, when it is a string. -/
def stringOf : JVal → Option String
  | JVal.str s => some s
  | _ => none

/-- Whether a value is a string. -/
def JVal.isStr : JVal → Bool
  | JVal.str _ => true
  | _ => false

/-- Whether a value is a sequence. -/
def JVal.isArr : JVal → Bool
  | JVal.arr _ => true
  | _ => false

/-- Elements that carry a known tag without its payload in the right shape:
`type` text with `text` absent or not a string, or `type` image_url with
`image_url` absent or not an object. -/
def malformedTagged : JVal → Bool
  | JVal.obj fields =>
    match mapGet fields "type" with
    | some (JVal.str t) =>
      if t = ContentTypeText then
        match mapGet fields "text" with
        | some (JVal.str _) => false
        | _ => true
      else if t = ContentTypeImageURL then
        match mapGet fields "image_url" with
        | some (JVal.obj _) => false
        | _ => true
      else false
    | _ => false
  | _ => false

/-- Well-formed part: its `Type` is the text tag and it has no `ImageUrl`, or
its `Type` is the image tag, its `Text` is empty and its `ImageUrl` holds a
`MessageImageUrl`. -/
def wellFormedPart (p : MediaMessage) : Bool :=
  (decide (p.Type_ = ContentTypeText) && p.ImageUrl.isNone) ||
  (decide (p.Type_ = ContentTypeImageURL) && decide (p.Text = "") && p.ImageUrl.isSome)

/-- Built-in `append(s, t...)`: `s` itself when `t` has no element, otherwise
an allocated slice with the elements of `s` followed by those of `t`. -/
def GoSlice.appendAll {α : Type} (s t : GoSlice α) : GoSlice α :=
  match t.toList with
  | [] => s
  | x :: rest => GoSlice.mk (s.toList ++ x :: rest)

/-- Concatenation, in order, of the `Text` fields of a list of parts. -/
def partsText (parts : List MediaMessage) : String :=
  concatStrings (parts.map MediaMessage.Text)

/-! ## Basic facts about maps and slices -/

theorem mapIndex_of_get {m : GoMap} {k : String} {v : JVal} (h : mapGet m k = some v) :
    mapIndex m k = v := by
  simp [mapIndex, h]

theorem mapIndex_of_absent {m : GoMap} {k : String} (h : mapGet m k = none) :
    mapIndex m k = JVal.null := by
  simp [mapIndex, h]

theorem mapGet_set_same (m : GoMap) (k : String) (v : JVal) :
    mapGet (mapSet m k v) k = some v := by
  simp [mapSet, mapGet]

theorem mapGet_set_other (m : GoMap) {k j : String} (v : JVal) (h : k ≠ j) :
    mapGet (mapSet m k v) j = mapGet m j := by
  simp [mapSet, mapGet, h]

theorem assertString_str (s : String) : assertString (JVal.str s) = Except.ok s := rfl

theorem toList_append {α : Type} (s : GoSlice α) (x : α) :
    (s.append x).toList = s.toList ++ [x] := rfl

/-! ## Encoding and generic decoding -/

mutual
theorem decode_encode : ∀ v : JVal, v.encode.decode = some v
  | JVal.null => rfl
  | JVal.bool _ => rfl
  | JVal.num _ => rfl
  | JVal.str _ => rfl
  | JVal.arr items => by
    simp only [JVal.encode, RawDoc.decode, decodeItems_encodeItems items]
  | JVal.obj fields => by
    simp only [JVal.encode, RawDoc.decode, decodeMembers_encodeFields fields]
theorem decodeItems_encodeItems :
    ∀ vs : List JVal, RawDoc.decodeItems (JVal.encodeItems vs) = some vs
  | [] => rfl
  | v :: rest => by
    simp only [JVal.encodeItems, RawDoc.decodeItems, decode_encode v,
      decodeItems_encodeItems rest]
theorem decodeMembers_encodeFields :
    ∀ fields : GoMap, RawDoc.decodeMembers (JVal.encodeFields fields) = some fields
  | [] => rfl
  | (k, v) :: rest => by
    simp only [JVal.encodeFields, RawDoc.decodeMembers, decode_encode v,
      decodeMembers_encodeFields rest]
end

mutual
theorem encode_of_decode : ∀ (d : RawDoc) (v : JVal), d.decode = some v → d = v.encode
  | RawDoc.null, v, h => by
    simp only [RawDoc.decode, Option.some.injEq] at h
    subst h
    rfl
  | RawDoc.bool _, v, h => by
    simp only [RawDoc.decode, Option.some.injEq] at h
    subst h
    rfl
  | RawDoc.num _, v, h => by
    simp only [RawDoc.decode, Option.some.injEq] at h
    subst h
    rfl
  | RawDoc.numOutOfRange, v, h => by
    simp [RawDoc.decode] at h
  | RawDoc.str _, v, h => by
    simp only [RawDoc.decode, Option.some.injEq] at h
    subst h
    rfl
  | RawDoc.arr items, v, h => by
    simp only [RawDoc.decode] at h
    cases hd : RawDoc.decodeItems items with
    | none => simp [hd] at h
    | some vs =>
      simp only [hd, Option.some.injEq] at h
      subst h
      simp only [JVal.encode, encodeItems_of_decodeItems items vs hd]
  | RawDoc.obj members, v, h => by
    simp only [RawDoc.decode] at h
    cases hd : RawDoc.decodeMembers members with
    | none => simp [hd] at h
    | some fields =>
      simp only [hd, Option.some.injEq] at h
      subst h
      simp only [JVal.encode, encodeFields_of_decodeMembers members fields hd]
theorem encodeItems_of_decodeItems :
    ∀ (ds : List RawDoc) (vs : List JVal), RawDoc.decodeItems ds = some vs →
      ds = JVal.encodeItems vs
  | [], vs, h => by
    simp only [RawDoc.decodeItems, Option.some.injEq] at h
    subst h
    rfl
  | d :: rest, vs, h => by
    simp only [RawDoc.decodeItems] at h
    cases hd : RawDoc.decode d with
    | none => simp [hd] at h
    | some v =>
      cases hr : RawDoc.decodeItems rest with
      | none => simp [hd, hr] at h
      | some ws =>
        simp only [hd, hr, Option.some.injEq] at h
        subst h
        simp only [JVal.encodeItems, ← encode_of_decode d v hd,
          ← encodeItems_of_decodeItems rest ws hr]
theorem encodeFields_of_decodeMembers :
    ∀ (ms : List (String × RawDoc)) (fields : GoMap), RawDoc.decodeMembers ms = some fields →
      ms = JVal.encodeFields fields
  | [], fields, h => by
    simp only [RawDoc.decodeMembers, Option.some.injEq] at h
    subst h
    rfl
  | (k, d) :: rest, fields, h => by
    simp only [RawDoc.decodeMembers] at h
    cases hd : RawDoc.decode d with
    | none => simp [hd] at h
    | some v =>
      cases hr : RawDoc.decodeMembers rest with
      | none => simp [hd, hr] at h
      | some ws =>
        simp only [hd, hr, Option.some.injEq] at h
        subst h
        simp only [JVal.encodeFields, ← encode_of_decode d v hd,
          ← encodeFields_of_decodeMembers rest ws hr]
end

theorem encodeItems_cons (v : JVal) (rest : List JVal) :
    JVal.encodeItems (v :: rest) = v.encode :: JVal.encodeItems rest := rfl

theorem encodeItems_eq_map (vs : List JVal) : JVal.encodeItems vs = vs.map JVal.encode := by
  induction vs with
  | nil => rfl
  | cons v rest ih => simp [encodeItems_cons, ih]

theorem encodeItems_append (xs ys : List JVal) :
    JVal.encodeItems (xs ++ ys) = JVal.encodeItems xs ++ JVal.encodeItems ys := by
  simp [encodeItems_eq_map]

theorem unmarshalAny_encode (v : JVal) : unmarshalAny (jsonEncode v) = some v :=
  decode_encode v

theorem unmarshalMap_obj (fields : GoMap) :
    unmarshalMap (JVal.obj fields).encode = some fields :=
  decodeMembers_encodeFields fields

theorem content_of_unmarshalAny {raw : RawMessage} {v : JVal}
    (h : unmarshalAny raw = some v) : raw = jsonEncode v := by
  cases raw with
  | none => simp [unmarshalAny] at h
  | some d =>
    have hd : d.decode = some v := h
    rw [encode_of_decode d v hd]
    rfl

/-! ## Text elements -/

theorem parseContentItem_of_map (acc : GoSlice MediaMessage) (e : RawDoc) (fields : GoMap)
    (h : unmarshalMap e = some fields) :
    parseContentItem acc e = parseContentItem acc (JVal.obj fields).encode := by
  simp only [parseContentItem, h, unmarshalMap_obj]

theorem parseContentItem_no_map (acc : GoSlice MediaMessage) (e : RawDoc)
    (h : unmarshalMap e = none) : parseContentItem acc e = Except.ok acc := by
  simp only [parseContentItem, h]

theorem parseContentItem_textElement (acc : GoSlice MediaMessage) (t : String) :
    parseContentItem acc (textElement t).encode = Except.ok (acc.append (textPart t)) := by
  simp [parseContentItem, textElement, unmarshalMap_obj, mapIndex, mapGet, ContentTypeText,
    textPart]

theorem parseContentLoop_textElements (ts : List String) (acc : GoSlice MediaMessage) :
    ∃ parts, parseContentLoop acc (JVal.encodeItems (ts.map textElement)) = Except.ok parts ∧
      parts.toList = acc.toList ++ ts.map textPart := by
  induction ts generalizing acc with
  | nil => exact ⟨acc, rfl, by simp⟩
  | cons t rest ih =>
    obtain ⟨parts, hrun, hlist⟩ := ih (acc.append (textPart t))
    refine ⟨parts, ?_, ?_⟩
    · simp only [List.map_cons, encodeItems_cons, parseContentLoop,
        parseContentItem_textElement]
      exact hrun
    · rw [hlist, toList_append]
      simp

/-! ## Image elements -/

theorem parseImageUrl_detail (acc : GoSlice MediaMessage) (img : GoMap) (u d : String)
    (hurl : mapGet img "url" = some (JVal.str u))
    (hdetail : mapGet img "detail" = some (JVal.str d)) :
    parseImageUrl acc img = Except.ok (acc.append (imagePart u d)) := by
  have hne : ("detail" : String) ≠ "url" := by decide
  simp [parseImageUrl, hdetail, assertString, mapIndex, mapGet_set_same,
    mapGet_set_other _ _ hne, hurl, imagePart]

theorem parseImageUrl_auto (acc : GoSlice MediaMessage) (img : GoMap) (u : String)
    (hurl : mapGet img "url" = some (JVal.str u))
    (hdetail : mapGet img "detail" = none) :
    parseImageUrl acc img = Except.ok (acc.append (imagePart u "auto")) := by
  have hne : ("detail" : String) ≠ "url" := by decide
  simp [parseImageUrl, hdetail, assertString, mapIndex, mapGet_set_same,
    mapGet_set_other _ _ hne, hurl, imagePart]

theorem parseContentItem_image (acc : GoSlice MediaMessage) (fields img : GoMap)
    (htype : mapGet fields "type" = some (JVal.str ContentTypeImageURL))
    (himg : mapGet fields "image_url" = some (JVal.obj img)) :
    parseContentItem acc (JVal.obj fields).encode = parseImageUrl acc img := by
  simp [parseContentItem, unmarshalMap_obj, mapIndex, htype, himg, ContentTypeImageURL,
    ContentTypeText]

/-- An image element whose nested object lacks a string `url` makes the loop
body panic, whatever its `detail`. -/
theorem parseImageUrl_bad_url (acc : GoSlice MediaMessage) (img : GoMap)
    (hurl : ∀ u, mapGet img "url" ≠ some (JVal.str u)) :
    parseImageUrl acc img = Except.error Panic.interfaceConversion := by
  have hne : ("detail" : String) ≠ "url" := by decide
  have hassert : assertString (mapIndex img "url") = Except.error Panic.interfaceConversion := by
    unfold mapIndex
    cases hget : mapGet img "url" with
    | none => rfl
    | some v =>
      cases v with
      | str u => exact absurd hget (hurl u)
      | _ => rfl
  have hidx : ∀ v, mapIndex (mapSet img "detail" v) "url" = mapIndex img "url" := by
    intro v
    simp [mapIndex, mapGet_set_other _ _ hne]
  unfold parseImageUrl
  cases hdet : mapGet img "detail" with
  | none =>
    simp only [hidx, hassert]
  | some d =>
    cases d with
    | str s =>
      simp only [assertString_str, hidx, hassert]
    | _ => rfl

/-- An image element whose nested object has a `detail` that is not a string
makes the loop body panic. -/
theorem parseImageUrl_bad_detail (acc : GoSlice MediaMessage) (img : GoMap) (v : JVal)
    (hdet : mapGet img "detail" = some v) (hv : v.isStr = false) :
    parseImageUrl acc img = Except.error Panic.interfaceConversion := by
  unfold parseImageUrl
  cases v <;> simp_all [assertString, JVal.isStr]

/-! ## Elements passed over -/

theorem parseContentItem_ignored (acc : GoSlice MediaMessage) (e : JVal)
    (h : ignoredElement e = true) : parseContentItem acc e.encode = Except.ok acc := by
  cases e with
  | obj fields =>
    cases hget : mapGet fields "type" with
    | none => simp [parseContentItem, unmarshalMap_obj, mapIndex, hget]
    | some v =>
      cases v with
      | str t =>
        simp only [ignoredElement, hget, Bool.and_eq_true, decide_eq_true_eq] at h
        simp [parseContentItem, unmarshalMap_obj, mapIndex, hget, h.1, h.2]
      | _ => simp [parseContentItem, unmarshalMap_obj, mapIndex, hget]
  | _ => rfl

theorem parseContentLoop_filter (xs : List JVal) (acc : GoSlice MediaMessage) :
    parseContentLoop acc (JVal.encodeItems xs) =
      parseContentLoop acc (JVal.encodeItems (xs.filter (fun e => !ignoredElement e))) := by
  induction xs generalizing acc with
  | nil => rfl
  | cons x rest ih =>
    cases hx : ignoredElement x with
    | true =>
      simp only [List.filter, hx, Bool.not_true, encodeItems_cons, parseContentLoop,
        parseContentItem_ignored acc x hx]
      exact ih acc
    | false =>
      simp only [List.filter, hx, Bool.not_false, encodeItems_cons, parseContentLoop]
      cases parseContentItem acc x.encode with
      | error e => rfl
      | ok acc2 => exact ih acc2

theorem parseContentLoop_all_ignored (xs : List JVal) (acc : GoSlice MediaMessage)
    (h : ∀ e ∈ xs, ignoredElement e = true) :
    parseContentLoop acc (JVal.encodeItems xs) = Except.ok acc := by
  induction xs with
  | nil => rfl
  | cons x rest ih =>
    simp only [encodeItems_cons, parseContentLoop,
      parseContentItem_ignored acc x (h x (List.mem_cons_self x rest))]
    exact ih (fun e he => h e (List.mem_cons_of_mem x he))

theorem ParseContent_arr (xs : List JVal) :
    ParseContent (messageOf (JVal.arr xs)) =
      parseContentLoop GoSlice.nil (JVal.encodeItems xs) := rfl

/-! ## The flattened string -/

theorem stringContentItem_obj (acc : String) (fields : GoMap) :
    stringContentItem acc (JVal.obj fields) = acc ++ (textField (JVal.obj fields)).getD "" := by
  cases hty : mapGet fields "type" with
  | none => simp [stringContentItem, textField, mapIndex, hty]
  | some ty =>
    cases htx : mapGet fields "text" with
    | none =>
      cases ty <;> simp [stringContentItem, textField, mapIndex, hty, htx]
    | some tx =>
      cases ty <;> cases tx <;> simp [stringContentItem, textField, mapIndex, hty, htx]
      split <;> simp

theorem stringContentItem_eq (acc : String) (e : JVal) :
    stringContentItem acc e = acc ++ (textField e).getD "" := by
  cases e with
  | obj fields => exact stringContentItem_obj acc fields
  | _ => simp [stringContentItem, textField]

theorem stringContentLoop_eq (xs : List JVal) (acc : String) :
    stringContentLoop acc xs = acc ++ concatStrings (xs.filterMap textField) := by
  induction xs generalizing acc with
  | nil => simp [stringContentLoop, concatStrings]
  | cons x rest ih =>
    rw [stringContentLoop, ih, stringContentItem_eq]
    cases hx : textField x with
    | none => simp [List.filterMap_cons, hx]
    | some sub => simp [List.filterMap_cons, hx, concatStrings, String.append_assoc]

theorem StringContent_arr (xs : List JVal) :
    StringContent (messageOf (JVal.arr xs)) = stringContentLoop "" xs := by
  simp only [StringContent, messageOf, unmarshalAny_encode]

/-! ## The embeddings input -/

theorem parseInputLoop_eq (xs : List JVal) (acc : List String) :
    parseInputLoop (GoSlice.mk acc) xs = GoSlice.mk (acc ++ xs.filterMap stringOf) := by
  induction xs generalizing acc with
  | nil => simp [parseInputLoop]
  | cons x rest ih =>
    cases x <;>
      simp [parseInputLoop, parseInputItem, GoSlice.append, GoSlice.toList, ih, stringOf,
        List.filterMap_cons]

/-! ## What one element does to the part list -/

theorem tags_ne : ContentTypeImageURL ≠ ContentTypeText := by decide

theorem parseImageUrl_cases (img : GoMap) :
    (∀ acc, parseImageUrl acc img = Except.error Panic.interfaceConversion) ∨
    (∃ u d, ∀ acc, parseImageUrl acc img = Except.ok (acc.append (imagePart u d))) := by
  by_cases hurl : ∃ u, mapGet img "url" = some (JVal.str u)
  · obtain ⟨u, hu⟩ := hurl
    cases hdet : mapGet img "detail" with
    | none => exact Or.inr ⟨u, "auto", fun acc => parseImageUrl_auto acc img u hu hdet⟩
    | some v =>
      cases v with
      | str d => exact Or.inr ⟨u, d, fun acc => parseImageUrl_detail acc img u d hu hdet⟩
      | _ => exact Or.inl (fun acc => parseImageUrl_bad_detail acc img _ hdet rfl)
  · exact Or.inl (fun acc => parseImageUrl_bad_url acc img (fun u hu => hurl ⟨u, hu⟩))

theorem parseContentItem_obj_text (acc : GoSlice MediaMessage) (fields : GoMap)
    (htype : mapGet fields "type" = some (JVal.str ContentTypeText)) :
    parseContentItem acc (JVal.obj fields).encode =
      match mapGet fields "text" with
      | some (JVal.str sub) => Except.ok (acc.append (textPart sub))
      | _ => Except.ok acc := by
  cases htx : mapGet fields "text" with
  | none => simp [parseContentItem, unmarshalMap_obj, mapIndex, htype, htx]
  | some v => cases v <;> simp [parseContentItem, unmarshalMap_obj, mapIndex, htype, htx, textPart]

theorem parseContentItem_obj_image (acc : GoSlice MediaMessage) (fields : GoMap)
    (htype : mapGet fields "type" = some (JVal.str ContentTypeImageURL)) :
    parseContentItem acc (JVal.obj fields).encode =
      match mapGet fields "image_url" with
      | some (JVal.obj img) => parseImageUrl acc img
      | _ => Except.ok acc := by
  cases himg : mapGet fields "image_url" with
  | none =>
    simp [parseContentItem, unmarshalMap_obj, mapIndex, htype, himg, ContentTypeImageURL,
      ContentTypeText]
  | some v =>
    cases v <;>
      simp [parseContentItem, unmarshalMap_obj, mapIndex, htype, himg, ContentTypeImageURL,
        ContentTypeText]

theorem parseContentItem_obj_other (acc : GoSlice MediaMessage) (fields : GoMap)
    (h : ∀ t, mapGet fields "type" = some (JVal.str t) →
      t ≠ ContentTypeText ∧ t ≠ ContentTypeImageURL) :
    parseContentItem acc (JVal.obj fields).encode = Except.ok acc := by
  apply parseContentItem_ignored
  cases hty : mapGet fields "type" with
  | none => simp [ignoredElement, hty]
  | some v =>
    cases v with
    | str t => simp [ignoredElement, hty, (h t hty).1, (h t hty).2]
    | _ => simp [ignoredElement, hty]

theorem textField_obj_text (fields : GoMap)
    (htype : mapGet fields "type" = some (JVal.str ContentTypeText)) :
    textField (JVal.obj fields) =
      match mapGet fields "text" with
      | some (JVal.str sub) => some sub
      | _ => none := by
  cases htx : mapGet fields "text" with
  | none => simp [textField, htype, htx]
  | some v => cases v <;> simp [textField, htype, htx]

theorem textField_obj_not_text (fields : GoMap)
    (h : ∀ t, mapGet fields "type" = some (JVal.str t) → t ≠ ContentTypeText) :
    textField (JVal.obj fields) = none := by
  cases hty : mapGet fields "type" with
  | none => simp [textField, hty]
  | some v =>
    cases htx : mapGet fields "text" with
    | none => cases v <;> simp [textField, hty, htx]
    | some w =>
      cases v <;> cases w <;> simp [textField, hty, htx]
      exact h _ hty

/-- One loop iteration either panics, or leaves the part list alone, or appends
one text part, or appends one image part; which one, and the part, depend on
the element only. -/
theorem parseContentItem_cases (e : JVal) :
    (∀ acc, parseContentItem acc e.encode = Except.error Panic.interfaceConversion) ∨
    ((∀ acc, parseContentItem acc e.encode = Except.ok acc) ∧ textField e = none) ∨
    (∃ t, (∀ acc, parseContentItem acc e.encode = Except.ok (acc.append (textPart t))) ∧
      textField e = some t) ∨
    (∃ u d, (∀ acc, parseContentItem acc e.encode = Except.ok (acc.append (imagePart u d))) ∧
      textField e = none) := by
  cases e with
  | obj fields =>
    by_cases htext : mapGet fields "type" = some (JVal.str ContentTypeText)
    · cases htx : mapGet fields "text" with
      | none =>
        refine Or.inr (Or.inl ⟨fun acc => ?_, ?_⟩)
        · rw [parseContentItem_obj_text acc fields htext, htx]
        · rw [textField_obj_text fields htext, htx]
      | some v =>
        cases v with
        | str sub =>
          refine Or.inr (Or.inr (Or.inl ⟨sub, fun acc => ?_, ?_⟩))
          · rw [parseContentItem_obj_text acc fields htext, htx]
          · rw [textField_obj_text fields htext, htx]
        | _ =>
          refine Or.inr (Or.inl ⟨fun acc => ?_, ?_⟩)
          · rw [parseContentItem_obj_text acc fields htext, htx]
          · rw [textField_obj_text fields htext, htx]
    · have hnot : ∀ t, mapGet fields "type" = some (JVal.str t) → t ≠ ContentTypeText := by
        intro t ht hEq
        exact htext (hEq ▸ ht)
      have htf : textField (JVal.obj fields) = none := textField_obj_not_text fields hnot
      by_cases himage : mapGet fields "type" = some (JVal.str ContentTypeImageURL)
      · cases himg : mapGet fields "image_url" with
        | none =>
          refine Or.inr (Or.inl ⟨fun acc => ?_, htf⟩)
          rw [parseContentItem_obj_image acc fields himage, himg]
        | some v =>
          cases v with
          | obj img =>
            rcases parseImageUrl_cases img with hp | ⟨u, d, hok⟩
            · refine Or.inl (fun acc => ?_)
              rw [parseContentItem_obj_image acc fields himage, himg]
              exact hp acc
            · refine Or.inr (Or.inr (Or.inr ⟨u, d, fun acc => ?_, htf⟩))
              rw [parseContentItem_obj_image acc fields himage, himg]
              exact hok acc
          | _ =>
            refine Or.inr (Or.inl ⟨fun acc => ?_, htf⟩)
            rw [parseContentItem_obj_image acc fields himage, himg]
      · refine Or.inr (Or.inl ⟨fun acc => ?_, htf⟩)
        apply parseContentItem_obj_other
        intro t ht
        exact ⟨hnot t ht, fun hEq => himage (hEq ▸ ht)⟩
  | _ => exact Or.inr (Or.inl ⟨fun _ => rfl, rfl⟩)

theorem parseContentItem_malformed (e : JVal) (h : malformedTagged e = true)
    (acc : GoSlice MediaMessage) : parseContentItem acc e.encode = Except.ok acc := by
  cases e with
  | obj fields =>
    cases hty : mapGet fields "type" with
    | none => simp [malformedTagged, hty] at h
    | some v =>
      cases v with
      | str t =>
        by_cases htext : t = ContentTypeText
        · subst htext
          rw [parseContentItem_obj_text acc fields hty]
          cases htx : mapGet fields "text" with
          | none => rfl
          | some w =>
            cases w with
            | str sub => simp [malformedTagged, hty, htx] at h
            | _ => rfl
        · by_cases himage : t = ContentTypeImageURL
          · subst himage
            rw [parseContentItem_obj_image acc fields hty]
            cases himg : mapGet fields "image_url" with
            | none => rfl
            | some w =>
              cases w with
              | obj img => simp [malformedTagged, hty, himg, tags_ne] at h
              | _ => rfl
          · simp [malformedTagged, hty, htext, himage] at h
      | _ => simp [malformedTagged, hty] at h
  | _ => simp [malformedTagged] at h

/-- One loop iteration on any raw element, decodable or not, either panics,
or leaves the part list alone, or appends one text part, or appends one image
part. -/
theorem parseContentItem_raw_cases (e : RawDoc) :
    (∀ acc, parseContentItem acc e = Except.error Panic.interfaceConversion) ∨
    (∀ acc, parseContentItem acc e = Except.ok acc) ∨
    (∃ t, ∀ acc, parseContentItem acc e = Except.ok (acc.append (textPart t))) ∨
    (∃ u d, ∀ acc, parseContentItem acc e = Except.ok (acc.append (imagePart u d))) := by
  cases hmap : unmarshalMap e with
  | none => exact Or.inr (Or.inl (fun acc => parseContentItem_no_map acc e hmap))
  | some fields =>
    have hrw : ∀ acc, parseContentItem acc e = parseContentItem acc (JVal.obj fields).encode :=
      fun acc => parseContentItem_of_map acc e fields hmap
    rcases parseContentItem_cases (JVal.obj fields) with
      hp | ⟨hs, _⟩ | ⟨t, ht, _⟩ | ⟨u, d, hi, _⟩
    · exact Or.inl (fun acc => (hrw acc).trans (hp acc))
    · exact Or.inr (Or.inl (fun acc => (hrw acc).trans (hs acc)))
    · exact Or.inr (Or.inr (Or.inl ⟨t, fun acc => (hrw acc).trans (ht acc)⟩))
    · exact Or.inr (Or.inr (Or.inr ⟨u, d, fun acc => (hrw acc).trans (hi acc)⟩))

/-! ## The loop over a sequence -/

theorem parseContentLoop_append (xs ys : List RawDoc) (acc : GoSlice MediaMessage) :
    parseContentLoop acc (xs ++ ys) =
      match parseContentLoop acc xs with
      | Except.error e => Except.error e
      | Except.ok mid => parseContentLoop mid ys := by
  induction xs generalizing acc with
  | nil => rfl
  | cons x rest ih =>
    simp only [List.cons_append, parseContentLoop]
    cases parseContentItem acc x with
    | error e => rfl
    | ok acc2 => exact ih acc2

theorem parseContentLoop_skip (pre post : List RawDoc) (e : RawDoc)
    (h : ∀ acc, parseContentItem acc e = Except.ok acc) (acc : GoSlice MediaMessage) :
    parseContentLoop acc (pre ++ e :: post) = parseContentLoop acc (pre ++ post) := by
  rw [parseContentLoop_append, parseContentLoop_append]
  cases parseContentLoop acc pre with
  | error err => rfl
  | ok mid => simp [parseContentLoop, h mid]

theorem concatStrings_append (l1 l2 : List String) :
    concatStrings (l1 ++ l2) = concatStrings l1 ++ concatStrings l2 := by
  induction l1 with
  | nil => simp [concatStrings]
  | cons x rest ih => simp [concatStrings, ih, String.append_assoc]

theorem partsText_append (acc : GoSlice MediaMessage) (p : MediaMessage) :
    partsText (acc.append p).toList = partsText acc.toList ++ p.Text := by
  simp [partsText, toList_append, concatStrings_append, concatStrings]

theorem parseContentLoop_text (xs : List JVal) (acc r : GoSlice MediaMessage)
    (h : parseContentLoop acc (JVal.encodeItems xs) = Except.ok r) :
    partsText r.toList = partsText acc.toList ++ concatStrings (xs.filterMap textField) := by
  induction xs generalizing acc with
  | nil =>
    simp only [JVal.encodeItems, parseContentLoop, Except.ok.injEq] at h
    subst h
    simp [concatStrings]
  | cons x rest ih =>
    simp only [encodeItems_cons, parseContentLoop] at h
    rcases parseContentItem_cases x with hp | ⟨hs, htf⟩ | ⟨t, ht, htf⟩ | ⟨u, d, hi, htf⟩
    · simp [hp acc] at h
    · rw [hs acc] at h
      rw [ih acc h]
      simp [List.filterMap_cons, htf]
    · rw [ht acc] at h
      rw [ih _ h, partsText_append]
      simp [List.filterMap_cons, htf, concatStrings, textPart, String.append_assoc]
    · rw [hi acc] at h
      rw [ih _ h, partsText_append]
      simp [List.filterMap_cons, htf, imagePart]

theorem wellFormedPart_text (t : String) : wellFormedPart (textPart t) = true := by
  simp [wellFormedPart, textPart]

theorem wellFormedPart_image (u d : String) : wellFormedPart (imagePart u d) = true := by
  simp [wellFormedPart, imagePart]

theorem parseContentLoop_wf (xs : List RawDoc) (acc r : GoSlice MediaMessage)
    (h : parseContentLoop acc xs = Except.ok r)
    (hacc : ∀ p ∈ acc.toList, wellFormedPart p = true) :
    (∀ p ∈ r.toList, wellFormedPart p = true) ∧ r.len ≤ acc.len + xs.length := by
  induction xs generalizing acc with
  | nil =>
    simp only [parseContentLoop, Except.ok.injEq] at h
    subst h
    exact ⟨hacc, Nat.le_refl _⟩
  | cons x rest ih =>
    simp only [parseContentLoop] at h
    have grow : ∀ q, wellFormedPart q = true →
        parseContentLoop (acc.append q) rest = Except.ok r →
        (∀ p ∈ r.toList, wellFormedPart p = true) ∧ r.len ≤ acc.len + (x :: rest).length := by
      intro q hq hrun
      have hacc2 : ∀ p ∈ (acc.append q).toList, wellFormedPart p = true := by
        intro p hp
        rw [toList_append, List.mem_append, List.mem_singleton] at hp
        rcases hp with hp | hp
        · exact hacc p hp
        · exact hp ▸ hq
      obtain ⟨hwf, hlen⟩ := ih _ hrun hacc2
      refine ⟨hwf, ?_⟩
      have hl : (acc.append q).len = acc.len + 1 := by
        simp [GoSlice.len, toList_append]
      rw [hl] at hlen
      simp only [List.length_cons]
      omega
    rcases parseContentItem_raw_cases x with hp | hs | ⟨t, ht⟩ | ⟨u, d, hi⟩
    · simp [hp acc] at h
    · rw [hs acc] at h
      obtain ⟨hwf, hlen⟩ := ih acc h hacc
      refine ⟨hwf, ?_⟩
      simp only [List.length_cons]
      omega
    · rw [ht acc] at h
      exact grow _ (wellFormedPart_text t) h
    · rw [hi acc] at h
      exact grow _ (wellFormedPart_image u d) h

theorem toList_appendAll {α : Type} (s t : GoSlice α) :
    (s.appendAll t).toList = s.toList ++ t.toList := by
  unfold GoSlice.appendAll
  cases ht : t.toList with
  | nil => simp
  | cons x rest => simp [GoSlice.toList]

theorem appendAll_nil {α : Type} (s : GoSlice α) : s.appendAll GoSlice.nil = s := rfl

theorem appendAll_mk {α : Type} (s : GoSlice α) (l : List α) (x : α) :
    s.appendAll (GoSlice.mk (l ++ [x])) = GoSlice.mk (s.toList ++ (l ++ [x])) := by
  cases l <;> rfl

theorem appendAll_append {α : Type} (s t : GoSlice α) (x : α) :
    (s.appendAll t).append x = s.appendAll (t.append x) := by
  show GoSlice.mk ((s.appendAll t).toList ++ [x]) = s.appendAll (GoSlice.mk (t.toList ++ [x]))
  rw [appendAll_mk, toList_appendAll, List.append_assoc]

theorem parseContentLoop_shift (xs : List RawDoc) (acc r : GoSlice MediaMessage)
    (h : parseContentLoop acc xs = Except.ok r) (base : GoSlice MediaMessage) :
    parseContentLoop (base.appendAll acc) xs = Except.ok (base.appendAll r) := by
  induction xs generalizing acc with
  | nil =>
    simp only [parseContentLoop, Except.ok.injEq] at h
    subst h
    rfl
  | cons x rest ih =>
    simp only [parseContentLoop] at h ⊢
    rcases parseContentItem_raw_cases x with hp | hs | ⟨t, ht⟩ | ⟨u, d, hi⟩
    · simp [hp acc] at h
    · rw [hs acc] at h
      rw [hs (base.appendAll acc)]
      exact ih acc h
    · rw [ht acc] at h
      rw [ht (base.appendAll acc), appendAll_append]
      exact ih _ h
    · rw [hi acc] at h
      rw [hi (base.appendAll acc), appendAll_append]
      exact ih _ h

/-! ## Claims -/

/-- C1. For every string `s`, a message whose content is the JSON encoding of
`s` (whatever its role and name) has `StringContent` equal to `s`,
`IsStringContent` true, and `ParseContent` equal to the one-element slice
holding the text part of `s`, whose `ImageUrl` is nil. -/
theorem C1_string_payload (s role : String) (name : Option String) :
    StringContent { Role := role, Content := jsonEncode (JVal.str s), Name := name } = s ∧
    IsStringContent { Role := role, Content := jsonEncode (JVal.str s), Name := name } = true ∧
    ParseContent { Role := role, Content := jsonEncode (JVal.str s), Name := name } =
      Except.ok (GoSlice.mk [{ Type_ := ContentTypeText, Text := s, ImageUrl := none }]) :=
  ⟨rfl, rfl, rfl⟩

/-- C2. For every list of strings `ts`, `ParseContent` on the sequence payload
of the elements `{"type":"text","text":t}` for `t` in `ts` returns normally,
and the returned parts are exactly the text parts of `ts`, one per element and
in the same order. -/
theorem C2_text_sequence (ts : List String) :
    ∃ parts, ParseContent (messageOf (JVal.arr (ts.map textElement))) = Except.ok parts ∧
      parts.toList = ts.map textPart ∧
      parts.len = ts.length ∧
      parts.toList.map MediaMessage.Text = ts := by
  obtain ⟨parts, hrun, hlist⟩ := parseContentLoop_textElements ts GoSlice.nil
  refine ⟨parts, ?_, ?_, ?_, ?_⟩
  · rw [ParseContent_arr]
    exact hrun
  · simpa [GoSlice.toList] using hlist
  · rw [GoSlice.len, hlist]
    simp [GoSlice.toList]
  · rw [hlist]
    simp [GoSlice.toList, textPart, Function.comp_def]

/-- C3. A sequence element of type `image_url` whose nested `image_url` object
has a string `url` equal to `u` makes `ParseContent` append the image part with
`Url = u` and with `Detail = d` when the nested object has a string `detail`
equal to `d`, and `Detail = "auto"` when it has no `detail` field: this is
what the loop does at that element whatever raw elements follow it, and what
`ParseContent` returns on the sequence made of that element alone. -/
theorem C3_image_part (fields img : GoMap) (u : String)
    (htype : mapGet fields "type" = some (JVal.str ContentTypeImageURL))
    (himg : mapGet fields "image_url" = some (JVal.obj img))
    (hurl : mapGet img "url" = some (JVal.str u)) :
    (∀ d, mapGet img "detail" = some (JVal.str d) →
      (∀ acc rest, parseContentLoop acc ((JVal.obj fields).encode :: rest) =
        parseContentLoop (acc.append (imagePart u d)) rest) ∧
      ParseContent (messageOf (JVal.arr [JVal.obj fields])) =
        Except.ok (GoSlice.mk [imagePart u d])) ∧
    (mapGet img "detail" = none →
      (∀ acc rest, parseContentLoop acc ((JVal.obj fields).encode :: rest) =
        parseContentLoop (acc.append (imagePart u "auto")) rest) ∧
      ParseContent (messageOf (JVal.arr [JVal.obj fields])) =
        Except.ok (GoSlice.mk [imagePart u "auto"])) := by
  have key : ∀ d, (∀ acc, parseImageUrl acc img = Except.ok (acc.append (imagePart u d))) →
      (∀ acc rest, parseContentLoop acc ((JVal.obj fields).encode :: rest) =
        parseContentLoop (acc.append (imagePart u d)) rest) ∧
      ParseContent (messageOf (JVal.arr [JVal.obj fields])) =
        Except.ok (GoSlice.mk [imagePart u d]) := by
    intro d hd
    have hloop : ∀ acc rest, parseContentLoop acc ((JVal.obj fields).encode :: rest) =
        parseContentLoop (acc.append (imagePart u d)) rest := by
      intro acc rest
      simp [parseContentLoop, parseContentItem_image acc fields img htype himg, hd]
    refine ⟨hloop, ?_⟩
    show parseContentLoop GoSlice.nil [(JVal.obj fields).encode] = _
    rw [hloop]
    rfl
  exact ⟨fun d hd => key d (fun acc => parseImageUrl_detail acc img u d hurl hd),
    fun hd => key "auto" (fun acc => parseImageUrl_auto acc img u hurl hd)⟩

/-- Witness for C3 in the shape of the spec examples: the element
`{"type":"image_url","image_url":{"url":"http://x"}}` yields the image part
with detail `"auto"`. -/
theorem C3_image_part_witness :
    ParseContent (messageOf (JVal.arr [JVal.obj [("type", JVal.str "image_url"),
      ("image_url", JVal.obj [("url", JVal.str "http://x")])]])) =
      Except.ok (GoSlice.mk [imagePart "http://x" "auto"]) :=
  ((C3_image_part [("type", JVal.str "image_url"),
      ("image_url", JVal.obj [("url", JVal.str "http://x")])]
    [("url", JVal.str "http://x")] "http://x" rfl rfl rfl).2 rfl).2

/-- C4 (the code departs from the claim). On the payload
`[{"type":"text","text":"a"},{"type":"image_url","image_url":{}},{"type":"text","text":"b"}]`
the image element has no `url`; `ParseContent` does not drop it and return the
two text parts, it panics at `subObj["url"].(string)`. -/
theorem C4_missing_url_panics :
    ParseContent (messageOf (JVal.arr [textElement "a",
      JVal.obj [("type", JVal.str "image_url"), ("image_url", JVal.obj [])],
      textElement "b"])) = Except.error Panic.interfaceConversion := by
  rfl

/-- C5 (the code departs from the claim). On the payload
`[{"type":"image_url","image_url":{"url":"http://x","detail":1}}]` the
`detail` is a number; `ParseContent` does not return, it panics at
`detail.(string)`. -/
theorem C5_non_string_detail_panics :
    ParseContent (messageOf (JVal.arr [JVal.obj [("type", JVal.str "image_url"),
      ("image_url", JVal.obj [("url", JVal.str "http://x"), ("detail", JVal.num 1)])]])) =
      Except.error Panic.interfaceConversion := by
  rfl

/-- C6 (the code departs from the claim). On the payload `null` the typed
string decode succeeds and leaves `stringContent` empty, so `ParseContent`
returns one text part with empty text instead of zero parts; on a boolean, a
number or an object it returns the nil slice. -/
theorem C6_null_yields_one_part :
    ParseContent (messageOf JVal.null) = Except.ok (GoSlice.mk [textPart ""]) ∧
    (∀ parts, ParseContent (messageOf JVal.null) = Except.ok parts → parts.len = 1) ∧
    (∀ b, ParseContent (messageOf (JVal.bool b)) = Except.ok GoSlice.nil) ∧
    (∀ n, ParseContent (messageOf (JVal.num n)) = Except.ok GoSlice.nil) ∧
    (∀ fields, ParseContent (messageOf (JVal.obj fields)) = Except.ok GoSlice.nil) := by
  refine ⟨rfl, ?_, fun _ => rfl, fun _ => rfl, fun _ => rfl⟩
  intro parts h
  have h2 : Except.ok (GoSlice.mk [textPart ""]) = Except.ok parts := h
  cases h2
  rfl

/-- C7. In a sequence payload the elements that are not objects, or whose
`type` is neither the text tag nor the image tag (no `type` field included),
contribute nothing: `ParseContent` of the sequence equals `ParseContent` of the
sequence with those elements removed, and a sequence made only of such
elements yields the nil slice, which has zero parts. -/
theorem C7_ignored_elements (xs : List JVal) :
    ParseContent (messageOf (JVal.arr xs)) =
      ParseContent (messageOf (JVal.arr (xs.filter (fun e => !ignoredElement e)))) ∧
    ((∀ e ∈ xs, ignoredElement e = true) →
      ParseContent (messageOf (JVal.arr xs)) = Except.ok GoSlice.nil ∧
      (GoSlice.nil : GoSlice MediaMessage).len = 0) := by
  refine ⟨?_, fun h => ⟨?_, rfl⟩⟩
  · rw [ParseContent_arr, ParseContent_arr]
    exact parseContentLoop_filter xs GoSlice.nil
  · rw [ParseContent_arr]
    exact parseContentLoop_all_ignored xs GoSlice.nil h

/-- Witness for C7 on `[{"type":"unknown_tag","foo":"bar"}, 3, {"foo":1}]`:
all three elements are passed over and the result is the nil slice. -/
theorem C7_ignored_elements_witness :
    ParseContent (messageOf (JVal.arr [
      JVal.obj [("type", JVal.str "unknown_tag"), ("foo", JVal.str "bar")],
      JVal.num 3, JVal.obj [("foo", JVal.num 1)]])) = Except.ok GoSlice.nil :=
  ((C7_ignored_elements [
      JVal.obj [("type", JVal.str "unknown_tag"), ("foo", JVal.str "bar")],
      JVal.num 3, JVal.obj [("foo", JVal.num 1)]]).2
    (by
      intro e he
      simp only [List.mem_cons, List.mem_singleton, List.not_mem_nil, or_false] at he
      rcases he with h | h | h <;> subst h <;> rfl)).1

/-- C8. For every sequence payload `StringContent` returns the concatenation,
in sequence order, of the `text` fields of exactly the elements that are
objects with `type` equal to the text tag and a string `text`; every other
element adds nothing, and the result is the empty string when no element
qualifies. -/
theorem C8_string_content_sequence (xs : List JVal) :
    StringContent (messageOf (JVal.arr xs)) = concatStrings (xs.filterMap textField) ∧
    ((∀ e ∈ xs, textField e = none) → StringContent (messageOf (JVal.arr xs)) = "") := by
  have hmain : StringContent (messageOf (JVal.arr xs)) =
      concatStrings (xs.filterMap textField) := by
    rw [StringContent_arr, stringContentLoop_eq]
    simp
  refine ⟨hmain, fun h => ?_⟩
  have hnil : xs.filterMap textField = [] := by
    rw [List.filterMap_eq_nil_iff]
    exact h
  rw [hmain, hnil]
  rfl

/-- Witness for C8 on `[3, {"type":"image_url","text":"x"}, {"type":"text"}]`:
no element qualifies and the flattened string is empty. -/
theorem C8_string_content_sequence_witness :
    StringContent (messageOf (JVal.arr [JVal.num 3,
      JVal.obj [("type", JVal.str "image_url"), ("text", JVal.str "x")],
      JVal.obj [("type", JVal.str "text")]])) = "" :=
  (C8_string_content_sequence [JVal.num 3,
      JVal.obj [("type", JVal.str "image_url"), ("text", JVal.str "x")],
      JVal.obj [("type", JVal.str "text")]]).2
    (by
      intro e he
      simp only [List.mem_cons, List.mem_singleton, List.not_mem_nil, or_false] at he
      rcases he with h | h | h <;> subst h <;> rfl)

/-- C9. For every sequence input `xs`, `ParseInput` returns exactly the string
elements of `xs` in their original relative order, every other element being
dropped; in particular `["a", 3, "b"]` gives `["a", "b"]`. -/
theorem C9_parse_input_sequence (xs : List JVal) :
    ParseInput { Input := JVal.arr xs } = GoSlice.mk (xs.filterMap stringOf) ∧
    ParseInput { Input := JVal.arr [JVal.str "a", JVal.num 3, JVal.str "b"] } =
      GoSlice.mk ["a", "b"] := by
  refine ⟨?_, rfl⟩
  show parseInputLoop (GoSlice.mk []) xs = _
  rw [parseInputLoop_eq]
  simp

/-- C10 as stated fails: on the number 42 `ParseInput` returns the nil slice,
not an allocated empty slice; the same holds for a nil input. -/
theorem C10_result_is_nil :
    ParseInput { Input := JVal.num 42 } ≠ GoSlice.mk [] ∧
    (ParseInput { Input := JVal.num 42 }).isNil = true ∧
    (ParseInput { Input := JVal.null }).isNil = true := by
  refine ⟨by decide, rfl, rfl⟩

/-- C10 amended. When the input is nil, or any value that is neither a string
nor a sequence, `ParseInput` returns the nil slice, whose length is zero. -/
theorem C10_parse_input_unusable (v : JVal) (hs : v.isStr = false) (ha : v.isArr = false) :
    ParseInput { Input := v } = GoSlice.nil ∧ (ParseInput { Input := v }).len = 0 := by
  cases v <;> simp_all [ParseInput, JVal.isStr, JVal.isArr, GoSlice.len, GoSlice.toList]

/-- Witness for the amended C10 at the number 42. -/
theorem C10_parse_input_unusable_witness :
    ParseInput { Input := JVal.num 42 } = GoSlice.nil ∧
    (ParseInput { Input := JVal.num 42 }).len = 0 :=
  C10_parse_input_unusable (JVal.num 42) rfl rfl

/-- C11. For every content payload that fails generic decoding (empty bytes or
a malformed encoding), whatever the role and name of the message,
`StringContent` returns the empty string, `IsStringContent` returns false and
`ParseContent` returns normally with the nil slice. -/
theorem C11_undecodable_payload (role : String) (name : Option String) :
    StringContent { Role := role, Content := none, Name := name } = "" ∧
    IsStringContent { Role := role, Content := none, Name := name } = false ∧
    ParseContent { Role := role, Content := none, Name := name } = Except.ok GoSlice.nil ∧
    (GoSlice.nil : GoSlice MediaMessage).len = 0 :=
  ⟨rfl, rfl, rfl, rfl⟩

/-- C12. `IsStringContent` returns true if and only if the content payload
decodes successfully and the decoded value is a string; on a payload that
decodes to null, a boolean, a number, a sequence or an object it returns
false. -/
theorem C12_is_string_content (m : Message) :
    (IsStringContent m = true ↔ ∃ s, unmarshalAny m.Content = some (JVal.str s)) ∧
    (∀ v, m.Content = jsonEncode v → IsStringContent m = v.isStr) ∧
    IsStringContent (messageOf JVal.null) = false ∧
    (∀ b, IsStringContent (messageOf (JVal.bool b)) = false) ∧
    (∀ n, IsStringContent (messageOf (JVal.num n)) = false) ∧
    (∀ xs, IsStringContent (messageOf (JVal.arr xs)) = false) ∧
    (∀ fields, IsStringContent (messageOf (JVal.obj fields)) = false) := by
  refine ⟨?_, ?_, rfl, fun _ => rfl, fun _ => rfl,
    fun xs => by simp only [IsStringContent, messageOf, unmarshalAny_encode],
    fun fields => by simp only [IsStringContent, messageOf, unmarshalAny_encode]⟩
  · obtain ⟨role, content, name⟩ := m
    simp only [IsStringContent]
    cases hdec : unmarshalAny content with
    | none => simp
    | some v => cases v <;> simp
  · intro v hv
    obtain ⟨role, content, name⟩ := m
    simp only at hv
    subst hv
    simp only [IsStringContent, unmarshalAny_encode]
    cases v <;> rfl

/-- C13. For every content payload that decodes successfully as neither a
string nor a sequence (null, a boolean, a number, an object), `StringContent`
returns the empty string. -/
theorem C13_string_content_other (m : Message) (v : JVal) (hc : m.Content = jsonEncode v)
    (hs : v.isStr = false) (ha : v.isArr = false) : StringContent m = "" := by
  obtain ⟨role, content, name⟩ := m
  simp only at hc
  subst hc
  simp only [StringContent, unmarshalAny_encode]
  cases v <;> simp_all [JVal.isStr, JVal.isArr]

/-- Witness for C13 on the object payload `{"a":1}`. -/
theorem C13_string_content_other_witness :
    StringContent (messageOf (JVal.obj [("a", JVal.num 1)])) = "" :=
  C13_string_content_other (messageOf (JVal.obj [("a", JVal.num 1)]))
    (JVal.obj [("a", JVal.num 1)]) rfl rfl rfl

/-- C14. For every string `s`, `ParseInput` on a request whose input is `s`
returns exactly the one-element slice holding `s`. -/
theorem C14_parse_input_string (s : String) :
    ParseInput { Input := JVal.str s } = GoSlice.mk [s] ∧
    (ParseInput { Input := JVal.str s }).toList = [s] ∧
    (ParseInput { Input := JVal.str s }).len = 1 :=
  ⟨rfl, rfl, rfl⟩

/-- C15. A sequence element that carries a known tag without its payload in
the right shape (`type` text with `text` absent or not a string, `type`
image_url with `image_url` absent or not an object) yields no part: the loop
body leaves the part list as it is, and `ParseContent` of a sequence that
contains it, between any elements `pre` and `post`, equals `ParseContent` of
the sequence without it. -/
theorem C15_malformed_tagged (pre post : List JVal) (e : JVal)
    (h : malformedTagged e = true) :
    (∀ acc, parseContentItem acc e.encode = Except.ok acc) ∧
    ParseContent (messageOf (JVal.arr (pre ++ e :: post))) =
      ParseContent (messageOf (JVal.arr (pre ++ post))) := by
  refine ⟨parseContentItem_malformed e h, ?_⟩
  rw [ParseContent_arr, ParseContent_arr, encodeItems_append, encodeItems_append,
    encodeItems_cons]
  exact parseContentLoop_skip _ _ e.encode (parseContentItem_malformed e h) GoSlice.nil

/-- Witness for C15 on `[{"type":"text","text":"a"}, {"type":"image_url"},
{"type":"text","text":"b"}]`: the middle element has no `image_url` object. -/
theorem C15_malformed_tagged_witness :
    malformedTagged (JVal.obj [("type", JVal.str "image_url")]) = true ∧
    ParseContent (messageOf (JVal.arr ([textElement "a"] ++
      JVal.obj [("type", JVal.str "image_url")] :: [textElement "b"]))) =
      ParseContent (messageOf (JVal.arr ([textElement "a"] ++ [textElement "b"]))) :=
  ⟨rfl, (C15_malformed_tagged [textElement "a"] [textElement "b"]
    (JVal.obj [("type", JVal.str "image_url")]) rfl).2⟩

/-- C16 as stated fails: on the payload `[{"type":"text","text":"a"},1e999]`
the raw array decode of `ParseContent` succeeds and the call returns the text
part of `a` (the number is no object and is passed over), while the generic
decode of `StringContent` returns an error on the number literal, so
`StringContent` is the empty string and not `a`. -/
theorem C16_out_of_range_number_disagrees :
    ParseContent { Content := some (RawDoc.arr [(textElement "a").encode,
      RawDoc.numOutOfRange]) } = Except.ok (GoSlice.mk [textPart "a"]) ∧
    StringContent { Content := some (RawDoc.arr [(textElement "a").encode,
      RawDoc.numOutOfRange]) } = "" ∧
    StringContent { Content := some (RawDoc.arr [(textElement "a").encode,
      RawDoc.numOutOfRange]) } ≠ partsText (GoSlice.mk [textPart "a"]).toList := by
  refine ⟨rfl, rfl, by decide⟩

/-- C16 amended. The two extractors agree on text on every payload that is
not well-formed or that the generic decode accepts: when `ParseContent`
returns normally on such a message, `StringContent` equals the concatenation,
in order, of the `Text` fields of the returned parts (an image part has an
empty `Text`). -/
theorem C16_extractors_agree_decodable (m : Message) (parts : GoSlice MediaMessage)
    (h : ParseContent m = Except.ok parts)
    (hd : m.Content = none ∨ ∃ v, unmarshalAny m.Content = some v) :
    StringContent m = partsText parts.toList := by
  obtain ⟨role, content, name⟩ := m
  have hnil : ∀ q : GoSlice MediaMessage, Except.ok GoSlice.nil = (Except.ok q : Except Panic _) →
      ("" : String) = partsText q.toList := by
    intro q hq
    cases hq
    rfl
  have hone : ∀ (t : String) (q : GoSlice MediaMessage),
      Except.ok (GoSlice.mk [textPart t]) = (Except.ok q : Except Panic _) →
      t = partsText q.toList := by
    intro t q hq
    cases hq
    simp [partsText, GoSlice.toList, concatStrings, textPart]
  rcases hd with hnone | ⟨v, hv⟩
  · simp only at hnone
    subst hnone
    exact hnil parts h
  · have hc : content = jsonEncode v := content_of_unmarshalAny hv
    subst hc
    simp only [StringContent, unmarshalAny_encode]
    cases v with
    | null => exact hone "" parts h
    | bool b => exact hnil parts h
    | num n => exact hnil parts h
    | str t => exact hone t parts h
    | obj fields => exact hnil parts h
    | arr xs =>
      have hloop : parseContentLoop GoSlice.nil (JVal.encodeItems xs) = Except.ok parts := h
      have htext := parseContentLoop_text xs GoSlice.nil parts hloop
      show stringContentLoop "" xs = _
      rw [stringContentLoop_eq, htext]
      rfl

/-- Witness for the amended C16 on a text element, an image element and a
text element. -/
theorem C16_extractors_agree_decodable_witness :
    StringContent (messageOf (JVal.arr [textElement "a",
      JVal.obj [("type", JVal.str "image_url"),
        ("image_url", JVal.obj [("url", JVal.str "http://x")])],
      textElement "b"])) =
    partsText [textPart "a", imagePart "http://x" "auto", textPart "b"] :=
  C16_extractors_agree_decodable (messageOf (JVal.arr [textElement "a",
      JVal.obj [("type", JVal.str "image_url"),
        ("image_url", JVal.obj [("url", JVal.str "http://x")])],
      textElement "b"]))
    (GoSlice.mk [textPart "a", imagePart "http://x" "auto", textPart "b"]) rfl
    (Or.inr ⟨_, rfl⟩)

/-- C17. `ParseContent` processes sequence elements independently: when it
returns normally on the sequences `xs` and `ys`, it returns normally on
`xs ++ ys`, with the parts of `xs` followed by the parts of `ys`. -/
theorem C17_concat_homomorphism (xs ys : List JVal) (px py : GoSlice MediaMessage)
    (hx : ParseContent (messageOf (JVal.arr xs)) = Except.ok px)
    (hy : ParseContent (messageOf (JVal.arr ys)) = Except.ok py) :
    ParseContent (messageOf (JVal.arr (xs ++ ys))) = Except.ok (px.appendAll py) ∧
    (px.appendAll py).toList = px.toList ++ py.toList := by
  rw [ParseContent_arr] at hx hy
  refine ⟨?_, toList_appendAll px py⟩
  rw [ParseContent_arr, encodeItems_append, parseContentLoop_append, hx]
  exact parseContentLoop_shift _ GoSlice.nil py hy px

/-- Witness for C17 with `xs` one text element and `ys` one image element. -/
theorem C17_concat_homomorphism_witness :
    ParseContent (messageOf (JVal.arr ([textElement "a"] ++
      [JVal.obj [("type", JVal.str "image_url"),
        ("image_url", JVal.obj [("url", JVal.str "http://x"), ("detail", JVal.str "low")])]]))) =
      Except.ok ((GoSlice.mk [textPart "a"]).appendAll
        (GoSlice.mk [imagePart "http://x" "low"])) :=
  (C17_concat_homomorphism [textElement "a"]
    [JVal.obj [("type", JVal.str "image_url"),
      ("image_url", JVal.obj [("url", JVal.str "http://x"), ("detail", JVal.str "low")])]]
    (GoSlice.mk [textPart "a"]) (GoSlice.mk [imagePart "http://x" "low"]) rfl rfl).1

/-- C18. Every result of `ParseContent` is well-formed: each returned part has
`Type` equal to the text tag or the image tag; a part with the text tag has a
nil `ImageUrl`; a part with the image tag has an empty `Text` and an `ImageUrl`
holding a `MessageImageUrl`; and for a sequence payload the number of returned
parts is at most the number of elements of the sequence, be the payload given
by the value it encodes or by its raw elements. -/
theorem C18_result_well_formed (m : Message) (parts : GoSlice MediaMessage)
    (h : ParseContent m = Except.ok parts) :
    (∀ p ∈ parts.toList,
      (p.Type_ = ContentTypeText ∨ p.Type_ = ContentTypeImageURL) ∧
      (p.Type_ = ContentTypeText → p.ImageUrl = none) ∧
      (p.Type_ = ContentTypeImageURL →
        p.Text = "" ∧ ∃ u d, p.ImageUrl = some { Url := u, Detail := d })) ∧
    (∀ xs, m.Content = jsonEncode (JVal.arr xs) → parts.len ≤ xs.length) ∧
    (∀ items, m.Content = some (RawDoc.arr items) → parts.len ≤ items.length) := by
  have hwf : (∀ p ∈ parts.toList, wellFormedPart p = true) ∧
      (∀ items, m.Content = some (RawDoc.arr items) → parts.len ≤ items.length) := by
    obtain ⟨role, content, name⟩ := m
    have hnil : ∀ q : GoSlice MediaMessage,
        Except.ok GoSlice.nil = (Except.ok q : Except Panic _) →
        ∀ p ∈ q.toList, wellFormedPart p = true := by
      intro q hq
      cases hq
      intro p hp
      cases hp
    have hone : ∀ (t : String) (q : GoSlice MediaMessage),
        Except.ok (GoSlice.mk [textPart t]) = (Except.ok q : Except Panic _) →
        ∀ p ∈ q.toList, wellFormedPart p = true := by
      intro t q hq
      cases hq
      intro p hp
      simp only [GoSlice.toList, List.mem_singleton] at hp
      subst hp
      exact wellFormedPart_text t
    cases content with
    | none => exact ⟨hnil parts h, fun items hi => by simp at hi⟩
    | some d =>
      cases d with
      | null => exact ⟨hone "" parts h, fun items hi => by simp at hi⟩
      | bool b => exact ⟨hnil parts h, fun items hi => by simp at hi⟩
      | num n => exact ⟨hnil parts h, fun items hi => by simp at hi⟩
      | numOutOfRange => exact ⟨hnil parts h, fun items hi => by simp at hi⟩
      | str t => exact ⟨hone t parts h, fun items hi => by simp at hi⟩
      | obj members => exact ⟨hnil parts h, fun items hi => by simp at hi⟩
      | arr ys =>
        have hloop : parseContentLoop GoSlice.nil ys = Except.ok parts := h
        obtain ⟨hall, hlen⟩ := parseContentLoop_wf ys GoSlice.nil parts hloop
          (fun p hp => by cases hp)
        refine ⟨hall, fun items hi => ?_⟩
        simp only [Option.some.injEq, RawDoc.arr.injEq] at hi
        subst hi
        simpa [GoSlice.len, GoSlice.toList] using hlen
  refine ⟨fun p hp => ?_, fun xs hxs => ?_, hwf.2⟩
  · have hp2 := hwf.1 p hp
    obtain ⟨ty, tx, img⟩ := p
    simp only [wellFormedPart, Bool.or_eq_true, Bool.and_eq_true, decide_eq_true_eq,
      Option.isNone_iff_eq_none, Option.isSome_iff_exists] at hp2
    rcases hp2 with ⟨hty, himg⟩ | ⟨⟨hty, htx⟩, u, himg⟩
    · refine ⟨Or.inl hty, fun _ => himg, fun hty2 => ?_⟩
      exact absurd (hty2.symm.trans hty) tags_ne
    · refine ⟨Or.inr hty, fun hty2 => ?_, fun _ => ⟨htx, u.Url, u.Detail, himg⟩⟩
      exact absurd (hty.symm.trans hty2) tags_ne
  · have hlen := hwf.2 (JVal.encodeItems xs) hxs
    rw [encodeItems_eq_map, List.length_map] at hlen
    exact hlen

/-- Witness for C18 on a text element, an ignored number and an image element:
two well-formed parts from three elements. -/
theorem C18_result_well_formed_witness :
    (∀ p ∈ [textPart "a", imagePart "http://x" "auto"],
      (p.Type_ = ContentTypeText ∨ p.Type_ = ContentTypeImageURL) ∧
      (p.Type_ = ContentTypeText → p.ImageUrl = none) ∧
      (p.Type_ = ContentTypeImageURL →
        p.Text = "" ∧ ∃ u d, p.ImageUrl = some { Url := u, Detail := d })) ∧
    (GoSlice.mk [textPart "a", imagePart "http://x" "auto"]).len ≤ 3 :=
  ⟨(C18_result_well_formed (messageOf (JVal.arr [textElement "a", JVal.num 3,
      JVal.obj [("type", JVal.str "image_url"),
        ("image_url", JVal.obj [("url", JVal.str "http://x")])]]))
      (GoSlice.mk [textPart "a", imagePart "http://x" "auto"]) rfl).1,
    (C18_result_well_formed (messageOf (JVal.arr [textElement "a", JVal.num 3,
      JVal.obj [("type", JVal.str "image_url"),
        ("image_url", JVal.obj [("url", JVal.str "http://x")])]]))
      (GoSlice.mk [textPart "a", imagePart "http://x" "auto"]) rfl).2.1 _ rfl⟩

end OpenAI
